import Mathlib

/-!
Shallow embedding of `tensorflow_datasets/core/features/text/text_encoder.py`.

Modelling conventions:
* Python text is modelled as `List Char` for the tokenizer and the token
  encoder, and as its UTF-8 byte sequence `List Nat` for the byte encoder
  (UTF-8 encoding is injective and self-synchronizing, so literal token
  matching on bytes agrees with matching on text).
* Ids are `Int` (Python ints).
* A raised Python exception is `none` (or `Except.error` at construction).
* The regex `(tok1|tok2|...)` built by `_prepare_reserved_tokens` is modelled
  as a literal leftmost scan that tries the alternatives in list order, which
  is the regex engine's behaviour for metacharacter-free tokens; tokens that
  are empty strings are treated as non-matching (a degenerate configuration
  no claim depends on).
* `hashlib.md5`-based hashing (`int(md5(utf8(tok)).hexdigest(), 16)`) is an
  external library call; it is carried as an opaque function field `hashVal`
  of the encoder state.
* `oov_buckets : Nat` models the Python int with every value `<= 0`
  collapsed to `0` (the code only tests `<= 0` and `== 1`).
-/

/-- `NUM_BYTES = 2**8`. -/
def NUM_BYTES : Nat := 2 ^ 8

/-- The backward scan of `pad_decr` (`idx = -1; while not ids[idx]: idx -= 1`),
run on the reversed list: it consumes the leading zeros of the reversed
sequence; `none` models the `IndexError` raised when the scan runs past the
start of the list (empty or all-zero input). -/
def stripLeadingZeros : List Int → Option (List Int)
  | [] => none
  | i :: rest => if i = 0 then stripLeadingZeros rest else some (i :: rest)

/-- `pad_decr(ids)`: strip the zeros at the end of the sequence only, then
decrement every remaining id by 1.  `none` models the `IndexError` on an
empty or all-zero input. -/
def pad_decr (ids : List Int) : Option (List Int) :=
  match stripLeadingZeros ids.reverse with
  | none => none
  | some r => some (r.reverse.map (fun i => i - 1))

/-- `pad_incr(ids)`: add 1 to every id to account for pad id 0. -/
def pad_incr (ids : List Int) : List Int := ids.map (fun i => i + 1)

/-- Spec-side description of the pad-strip step: remove exactly the maximal
run of zeros at the end of the sequence. -/
def dropTrailingZeros (ids : List Int) : List Int :=
  (ids.reverse.dropWhile (fun i => i == 0)).reverse

/-- A Python `for`-loop that appends `f x` for each element and raises
(`none`) as soon as `f` raises. -/
def mapOrNone (f : α → Option β) : List α → Option (List β)
  | [] => some []
  | a :: l =>
    match f a with
    | none => none
    | some b => (mapOrNone f l).map (fun bs => b :: bs)

/-- Helper for `dictZipLookup`: walks the keys with an explicit index,
later bindings overwriting earlier ones, exactly as a Python dict built
from `zip(keys, range(len(keys)))`. -/
def dictZipLookupGo [DecidableEq α] (t : α) : List α → Nat → Option Nat → Option Nat
  | [], _, acc => acc
  | k :: ks, i, acc => dictZipLookupGo t ks (i + 1) (if k = t then some i else acc)

/-- Models `dict(zip(keys, range(len(keys)))).get(t)` (used for both
`_token_to_id` and `_additional_token_to_id`).  A duplicate key is mapped
to its last index, because later dict insertions overwrite earlier ones. -/
def dictZipLookup [DecidableEq α] (keys : List α) (t : α) : Option Nat :=
  dictZipLookupGo t keys 0 none

/-- Models `re.split` with the capturing pattern `(tok1|tok2|...)` compiled by
`_prepare_reserved_tokens`: scan left to right, at each position emit the
first token of the list that literally matches there, and accumulate
unmatched elements into the surrounding pieces.  The output alternates
non-token pieces and matched tokens, with empty pieces between adjacent
matches, as `re.split` produces.  `fuel` is an upper bound on the scan
length (instantiated with `s.length`, which always suffices since every
step consumes at least one element). -/
def reservedSplitGo [DecidableEq α] (tokens : List (List α)) :
    Nat → List α → List α → List (List α)
  | _, [], acc => [acc.reverse]
  | 0, s, acc => [acc.reverse ++ s]
  | fuel + 1, c :: rest, acc =>
    match tokens.find? (fun t => !t.isEmpty && t.isPrefixOf (c :: rest)) with
    | some t =>
      acc.reverse :: t :: reservedSplitGo tokens fuel ((c :: rest).drop t.length) []
    | none => reservedSplitGo tokens fuel rest (c :: acc)

/-- `self._reserved_tokens_re.split(s)` / `self._additional_tokens_re.split(s)`. -/
def reservedSplit [DecidableEq α] (tokens : List (List α)) (s : List α) : List (List α) :=
  reservedSplitGo tokens s.length s []

/-- Loop of `_find_duplicates`: `seen` set and ordered `dups` accumulator. -/
def findDuplicatesGo [DecidableEq α] : List α → List α → List α → List α
  | [], _, dups => dups.reverse
  | x :: xs, seen, dups =>
    if x ∈ seen then findDuplicatesGo xs seen (x :: dups)
    else findDuplicatesGo xs (x :: seen) dups

/-- `_find_duplicates(els)`. -/
def find_duplicates [DecidableEq α] (els : List α) : List α :=
  findDuplicatesGo els [] []

/-- `_prepare_reserved_tokens`: raises `ValueError` (here `Except.error`)
when the token list contains duplicates; otherwise returns the tokens (the
compiled regex itself is modelled by `reservedSplit` at the use sites). -/
def prepare_reserved_tokens [DecidableEq α] (reserved : List α) :
    Except (List α) (List α) :=
  let dups := find_duplicates reserved
  if dups.isEmpty then Except.ok reserved else Except.error dups

/-- `ByteTextEncoder` state: the additional tokens, kept as UTF-8 byte
sequences. -/
structure ByteTextEncoder where
  additional_tokens : List (List Nat)

/-- `ByteTextEncoder.__init__`: runs the duplicate check of
`_prepare_reserved_tokens` before constructing the encoder. -/
def mkByteTextEncoder (additional : List (List Nat)) :
    Except (List (List Nat)) ByteTextEncoder :=
  (prepare_reserved_tokens additional).map ByteTextEncoder.mk

/-- `ByteTextEncoder.encode`: with no additional tokens, the ids are the
UTF-8 bytes; otherwise the text is split on the additional tokens, a
matched token becomes its index and any other piece falls through to byte
encoding offset by the number of additional tokens (`if not substr:
continue` skips empty pieces).  Finally `pad_incr`. -/
def ByteTextEncoder.encode (e : ByteTextEncoder) (s : List Nat) : List Int :=
  if e.additional_tokens.isEmpty then
    pad_incr (s.map (fun (b : Nat) => (b : Int)))
  else
    pad_incr ((reservedSplit e.additional_tokens s).flatMap (fun sub =>
      if sub.isEmpty then []
      else
        match dictZipLookup e.additional_tokens sub with
        | some i => [(i : Int)]
        | none => sub.map (fun (b : Nat) => (b : Int) + (e.additional_tokens.length : Int))))

/-- `ByteTextEncoder.decode`: `pad_decr` then `bytes(bytearray(ids))`.  Note
that the source never consults `additional_tokens` here: every post-strip id
is treated as a raw byte, and `bytearray` raises `ValueError` (`none`) on
any id outside `[0, 256)`. -/
def ByteTextEncoder.decode (_e : ByteTextEncoder) (ids : List Int) : Option (List Nat) :=
  match pad_decr ids with
  | none => none
  | some ids => mapOrNone (fun i => if 0 ≤ i ∧ i < 256 then some i.toNat else none) ids

/-- `ByteTextEncoder.vocab_size = len(additional_tokens) + NUM_BYTES + 1`. -/
def ByteTextEncoder.vocab_size (e : ByteTextEncoder) : Nat :=
  e.additional_tokens.length + NUM_BYTES + 1

/-- Python's `\w` word-character class of `re.UNICODE`, restricted to its
ASCII fragment (alphanumeric or underscore); every theorem below that
involves tokenization is independent of the exact class. -/
def isWordChar (c : Char) : Bool := c.isAlphanum || c == '_'

/-- Splits a string into its maximal runs of same-classified characters:
the common core of `ALPHANUM_REGEX = \W+` (whose split keeps the word runs)
and `ALL_REGEX = (\W+)` (whose capturing split keeps all runs). -/
def splitRuns (isW : Char → Bool) : List Char → List (List Char)
  | [] => []
  | c :: rest =>
    match splitRuns isW rest with
    | [] => [[c]]
    | [] :: rs => [c] :: rs
    | (d :: r) :: rs =>
      if isW c = isW d then (c :: d :: r) :: rs else [c] :: (d :: r) :: rs

/-- A run kept by the non-capturing `\W+` split: its characters are word
characters (runs are homogeneous, so the head decides). -/
def isWordRun : List Char → Bool
  | [] => false
  | c :: _ => isWordChar c

/-- `Tokenizer` state. -/
structure Tokenizer where
  alphanum_only : Bool
  reserved_tokens : List (List Char)

/-- `Tokenizer.__init__`: duplicate check of `_prepare_reserved_tokens`. -/
def mkTokenizer (alphanum_only : Bool) (reserved : List (List Char)) :
    Except (List (List Char)) Tokenizer :=
  (prepare_reserved_tokens reserved).map (fun r => Tokenizer.mk alphanum_only r)

/-- `Tokenizer.tokenize`: split out reserved tokens first (when any are
configured), pass every non-reserved piece through the word/non-word regex
split, and drop empty tokens at the end. -/
def Tokenizer.tokenize (tk : Tokenizer) (s : List Char) : List (List Char) :=
  let substrs :=
    if tk.reserved_tokens.isEmpty then [s] else reservedSplit tk.reserved_tokens s
  let toks := substrs.flatMap (fun sub =>
    if sub ∈ tk.reserved_tokens then [sub]
    else if tk.alphanum_only then (splitRuns isWordChar sub).filter isWordRun
    else splitRuns isWordChar sub)
  toks.filter (fun t => !t.isEmpty)

/-- `Tokenizer.join`: space-join when `alphanum_only`, plain concatenation
otherwise. -/
def Tokenizer.join (tk : Tokenizer) (tokens : List (List Char)) : List Char :=
  if tk.alphanum_only then List.intercalate [' '] tokens else tokens.flatten

/-- `is_mixed_alphanum(token)`: more than one nonempty run under `ALL_REGEX`. -/
def is_mixed_alphanum (tok : List Char) : Bool :=
  1 < ((splitRuns isWordChar tok).filter (fun r => !r.isEmpty)).length

/-- `TokenTextEncoder` state, as left by `__init__`: `vocab_list` is the
already-normalized `self._vocab_list`, `hashVal` stands for the external
`int(hashlib.md5(utf8(token)).hexdigest(), 16)`. -/
structure TokenTextEncoder where
  vocab_list : List (List Char)
  oov_buckets : Nat
  oov_token : List Char
  lowercase : Bool
  hashVal : List Char → Nat
  tokenizer : Tokenizer

/-- Python `str.strip()`: drop whitespace at both ends. -/
def pyStrip (s : List Char) : List Char :=
  ((s.dropWhile Char.isWhitespace).reverse.dropWhile Char.isWhitespace).reverse

/-- `TokenTextEncoder.__init__`: normalize the vocabulary (strip, optional
lowercase), and when no tokenizer is supplied build the default one whose
reserved tokens are the mixed-alphanumeric vocabulary entries (a
construction that runs the duplicate check and can therefore raise). -/
def mkTokenTextEncoder (vocab : List (List Char)) (oov_buckets : Nat)
    (oov_token : List Char) (lowercase : Bool) (hashVal : List Char → Nat)
    (tokenizer : Option Tokenizer) : Except (List (List Char)) TokenTextEncoder :=
  let v1 := vocab.map pyStrip
  let v2 := if lowercase then v1.map (fun t => t.map Char.toLower) else v1
  match tokenizer with
  | some tk => Except.ok ⟨v2, oov_buckets, oov_token, lowercase, hashVal, tk⟩
  | none =>
    (prepare_reserved_tokens (v2.filter (fun t => is_mixed_alphanum t))).map
      (fun r => ⟨v2, oov_buckets, oov_token, lowercase, hashVal, ⟨true, r⟩⟩)

/-- The lowercasing step at the top of `TokenTextEncoder.encode`. -/
def TokenTextEncoder.procText (e : TokenTextEncoder) (s : List Char) : List Char :=
  if e.lowercase then s.map Char.toLower else s

/-- `TokenTextEncoder._oov_bucket`. -/
def TokenTextEncoder.oovBucket (e : TokenTextEncoder) (tok : List Char) : Option Nat :=
  if e.oov_buckets = 0 then none
  else if e.oov_buckets = 1 then some e.vocab_list.length
  else some (e.vocab_list.length + e.hashVal tok % e.oov_buckets)

/-- `TokenTextEncoder.encode`: tokenize the (lowercased) text, map every
token through the vocabulary table (`.get(token, -1)` followed by the
`< 0` test is the `none` branch here) with `_oov_bucket` as fallback,
raising (`none`) when the fallback also fails, then `pad_incr`. -/
def TokenTextEncoder.encode (e : TokenTextEncoder) (s : List Char) : Option (List Int) :=
  (mapOrNone (fun tok =>
      match dictZipLookup e.vocab_list tok with
      | some i => some ((i : Nat) : Int)
      | none => (e.oovBucket tok).map (fun (n : Nat) => (n : Int)))
    (e.tokenizer.tokenize (e.procText s))).map pad_incr

/-- Python list indexing `l[i]`, including the negative-index convention;
`none` is the `IndexError`. -/
def pyIndex (l : List α) (i : Int) : Option α :=
  if 0 ≤ i then l.get? i.toNat
  else if 0 ≤ i + l.length then l.get? (i + l.length).toNat
  else none

/-- `TokenTextEncoder.decode`: `pad_decr`, then each id below the vocabulary
length indexes the vocabulary (Python indexing, so a negative id counts from
the end) and any other id becomes `oov_token`; finally a space join. -/
def TokenTextEncoder.decode (e : TokenTextEncoder) (ids : List Int) : Option (List Char) :=
  match pad_decr ids with
  | none => none
  | some ids =>
    (mapOrNone (fun i =>
        if i < (e.vocab_list.length : Int) then pyIndex e.vocab_list i
        else some e.oov_token) ids).map (List.intercalate [' '])

/-- `TokenTextEncoder.vocab_size = len(vocab_list) + oov_buckets + 1`. -/
def TokenTextEncoder.vocab_size (e : TokenTextEncoder) : Nat :=
  e.vocab_list.length + e.oov_buckets + 1

/-- Concrete encoder with a duplicated (normalized) vocabulary entry, as
`TokenTextEncoder(["a", "a"], oov_buckets=1)` leaves it. -/
def dupVocabEncoder : TokenTextEncoder :=
  ⟨[['a'], ['a']], 1, ['U', 'N', 'K'], false, fun _ => 0, ⟨true, []⟩⟩

/-- Concrete encoder with `oov_buckets = 0`, as
`TokenTextEncoder(["c"], oov_buckets=0)` leaves it. -/
def noOovEncoder : TokenTextEncoder :=
  ⟨[['c']], 0, ['U', 'N', 'K'], false, fun _ => 0, ⟨true, []⟩⟩

/-- Concrete encoder with vocabulary `["hi"]` and one OOV bucket. -/
def smallVocabEncoder : TokenTextEncoder :=
  ⟨[['h', 'i']], 1, ['U', 'N', 'K'], false, fun _ => 0, ⟨true, []⟩⟩

/-! ### Helper lemmas -/

theorem stripLeadingZeros_of_exists_ne (l : List Int) (h : ∃ x ∈ l, x ≠ 0) :
    stripLeadingZeros l = some (l.dropWhile (fun i => i == 0)) := by
  induction l with
  | nil => simp at h
  | cons a l ih =>
    by_cases ha : a = 0
    · subst ha
      have h' : ∃ x ∈ l, x ≠ 0 := by
        rcases h with ⟨x, hx, hx0⟩
        rcases List.mem_cons.mp hx with rfl | hx
        · exact absurd rfl hx0
        · exact ⟨x, hx, hx0⟩
      simp [stripLeadingZeros, ih h']
    · simp [stripLeadingZeros, ha]

theorem stripLeadingZeros_of_all_zero (l : List Int) (h : ∀ x ∈ l, x = 0) :
    stripLeadingZeros l = none := by
  induction l with
  | nil => rfl
  | cons a l ih =>
    have ha : a = 0 := h a (List.mem_cons_self a l)
    simp [stripLeadingZeros, ha, ih (fun x hx => h x (List.mem_cons_of_mem a hx))]

theorem stripLeadingZeros_of_forall_ne (l : List Int) (hne : l ≠ []) (h : ∀ x ∈ l, x ≠ 0) :
    stripLeadingZeros l = some l := by
  cases l with
  | nil => exact absurd rfl hne
  | cons a t => simp [stripLeadingZeros, h a (List.mem_cons_self a t)]

theorem pad_decr_all_zero (ids : List Int) (h : ∀ x ∈ ids, x = 0) :
    pad_decr ids = none := by
  unfold pad_decr
  rw [stripLeadingZeros_of_all_zero ids.reverse (fun x hx => h x (List.mem_reverse.mp hx))]

theorem pad_decr_no_zero (ids : List Int) (hne : ids ≠ []) (h : ∀ x ∈ ids, x ≠ 0) :
    pad_decr ids = some (ids.map (fun i => i - 1)) := by
  unfold pad_decr
  rw [stripLeadingZeros_of_forall_ne ids.reverse (by simpa using hne)
    (fun x hx => h x (List.mem_reverse.mp hx))]
  simp

theorem mapOrNone_mem (f : α → Option β) (l : List α) (bs : List β)
    (hl : mapOrNone f l = some bs) : ∀ b ∈ bs, ∃ a ∈ l, f a = some b := by
  induction l generalizing bs with
  | nil =>
    simp only [mapOrNone, Option.some.injEq] at hl
    subst hl
    intro b hb
    simp at hb
  | cons a l ih =>
    intro b hb
    unfold mapOrNone at hl
    cases hfa : f a with
    | none => rw [hfa] at hl; simp at hl
    | some b0 =>
      rw [hfa] at hl
      rcases Option.map_eq_some'.mp hl with ⟨bs', hbs', rfl⟩
      rcases List.mem_cons.mp hb with rfl | hb'
      · exact ⟨a, List.mem_cons_self a l, hfa⟩
      · rcases ih bs' hbs' b hb' with ⟨a', ha', hfa'⟩
        exact ⟨a', List.mem_cons_of_mem a ha', hfa'⟩

theorem mapOrNone_none (f : α → Option β) (l : List α) (a : α)
    (ha : a ∈ l) (hfa : f a = none) : mapOrNone f l = none := by
  induction l with
  | nil => simp at ha
  | cons x l ih =>
    rcases List.mem_cons.mp ha with rfl | ha'
    · simp [mapOrNone, hfa]
    · cases hfx : f x with
      | none => simp [mapOrNone, hfx]
      | some b => simp [mapOrNone, hfx, ih ha']

theorem dictZipLookupGo_some [DecidableEq α] (t : α) (ks : List α) :
    ∀ (i : Nat) (acc : Option Nat) (j : Nat),
      dictZipLookupGo t ks i acc = some j →
      acc = some j ∨ ∃ d, ks.get? d = some t ∧ j = i + d := by
  induction ks with
  | nil => intro i acc j h; exact Or.inl h
  | cons k ks ih =>
    intro i acc j h
    rcases ih (i + 1) (if k = t then some i else acc) j h with hacc | ⟨d, hd, rfl⟩
    · by_cases hk : k = t
      · rw [if_pos hk] at hacc
        refine Or.inr ⟨0, by simp [hk], ?_⟩
        have : i = j := by simpa using hacc
        omega
      · rw [if_neg hk] at hacc
        exact Or.inl hacc
    · exact Or.inr ⟨d + 1, by simpa using hd, by omega⟩

theorem dictZipLookupGo_none [DecidableEq α] (t : α) (ks : List α) :
    ∀ (i : Nat) (acc : Option Nat),
      dictZipLookupGo t ks i acc = none → acc = none ∧ t ∉ ks := by
  induction ks with
  | nil => intro i acc h; exact ⟨h, by simp⟩
  | cons k ks ih =>
    intro i acc h
    rcases ih (i + 1) _ h with ⟨hacc, hmem⟩
    by_cases hk : k = t
    · rw [if_pos hk] at hacc
      simp at hacc
    · rw [if_neg hk] at hacc
      refine ⟨hacc, fun hmem' => ?_⟩
      rcases List.mem_cons.mp hmem' with heq | hm
      · exact hk heq.symm
      · exact hmem hm

theorem dictZipLookupGo_last [DecidableEq α] (t : α) (ks : List α) :
    ∀ (i : Nat) (acc : Option Nat) (j : Nat),
      dictZipLookupGo t ks i acc = some j →
      ∀ d, ks.get? d = some t → i + d ≤ j := by
  induction ks with
  | nil => intro i acc j _ d hd; simp at hd
  | cons k ks ih =>
    intro i acc j h d hd
    simp only [dictZipLookupGo] at h
    cases d with
    | zero =>
      have hk : k = t := by simpa using hd
      rw [if_pos hk] at h
      rcases dictZipLookupGo_some t ks (i + 1) (some i) j h with hacc | ⟨d', _, rfl⟩
      · have : i = j := by simpa using hacc
        omega
      · omega
    | succ d' =>
      have := ih (i + 1) (if k = t then some i else acc) j h d' (by simpa using hd)
      omega

theorem dictZipLookupGo_isSome_acc [DecidableEq α] (t : α) (ks : List α) :
    ∀ (i m : Nat), (dictZipLookupGo t ks i (some m)).isSome := by
  induction ks with
  | nil => intro i m; rfl
  | cons k ks ih =>
    intro i m
    by_cases hk : k = t
    · simp only [dictZipLookupGo, if_pos hk]
      exact ih (i + 1) i
    · simp only [dictZipLookupGo, if_neg hk]
      exact ih (i + 1) m

theorem dictZipLookupGo_isSome_of_mem [DecidableEq α] (t : α) (ks : List α)
    (hmem : t ∈ ks) :
    ∀ (i : Nat) (acc : Option Nat), (dictZipLookupGo t ks i acc).isSome := by
  induction ks with
  | nil => simp at hmem
  | cons k ks ih =>
    intro i acc
    by_cases hk : k = t
    · simp only [dictZipLookupGo, if_pos hk]
      exact dictZipLookupGo_isSome_acc t ks (i + 1) i
    · have hmem' : t ∈ ks := by
        rcases List.mem_cons.mp hmem with heq | hm
        · exact absurd heq.symm hk
        · exact hm
      simp only [dictZipLookupGo, if_neg hk]
      exact ih hmem' (i + 1) _

theorem dictZipLookupGo_not_mem [DecidableEq α] (t : α) (ks : List α) (hmem : t ∉ ks) :
    ∀ (i : Nat) (acc : Option Nat), dictZipLookupGo t ks i acc = acc := by
  induction ks with
  | nil => intro i acc; rfl
  | cons k ks ih =>
    intro i acc
    have hk : ¬ k = t := fun h => hmem (List.mem_cons.mpr (Or.inl h.symm))
    simp only [dictZipLookupGo, if_neg hk]
    exact ih (fun h => hmem (List.mem_cons_of_mem k h)) (i + 1) acc

theorem dictZipLookup_some [DecidableEq α] (keys : List α) (t : α) (i : Nat)
    (h : dictZipLookup keys t = some i) : keys.get? i = some t := by
  rcases dictZipLookupGo_some t keys 0 none i h with hacc | ⟨d, hd, rfl⟩
  · simp at hacc
  · simpa using hd

theorem dictZipLookup_lt [DecidableEq α] (keys : List α) (t : α) (i : Nat)
    (h : dictZipLookup keys t = some i) : i < keys.length := by
  have h' := dictZipLookup_some keys t i h
  rcases List.get?_eq_some.mp h' with ⟨hlt, _⟩
  exact hlt

theorem dictZipLookup_none_not_mem [DecidableEq α] (keys : List α) (t : α)
    (h : dictZipLookup keys t = none) : t ∉ keys :=
  (dictZipLookupGo_none t keys 0 none h).2

theorem dictZipLookup_none_of_not_mem [DecidableEq α] (keys : List α) (t : α)
    (h : t ∉ keys) : dictZipLookup keys t = none :=
  dictZipLookupGo_not_mem t keys h 0 none

theorem dictZipLookup_isSome_of_mem [DecidableEq α] (keys : List α) (t : α)
    (h : t ∈ keys) : (dictZipLookup keys t).isSome :=
  dictZipLookupGo_isSome_of_mem t keys h 0 none

theorem dictZipLookup_last [DecidableEq α] (keys : List α) (t : α) (i : Nat)
    (h : dictZipLookup keys t = some i) :
    ∀ j, keys.get? j = some t → j ≤ i := by
  intro j hj
  have := dictZipLookupGo_last t keys 0 none i h j hj
  omega

theorem reservedSplitGo_mem [DecidableEq α] (tokens : List (List α)) :
    ∀ (fuel : Nat) (s acc sub : List α),
      sub ∈ reservedSplitGo tokens fuel s acc →
      (∀ b ∈ sub, b ∈ s ∨ b ∈ acc) ∨ sub ∈ tokens := by
  intro fuel
  induction fuel with
  | zero =>
    intro s acc sub h
    cases s with
    | nil =>
      simp only [reservedSplitGo, List.mem_singleton] at h
      subst h
      exact Or.inl (fun b hb => Or.inr (List.mem_reverse.mp hb))
    | cons c rest =>
      simp only [reservedSplitGo, List.mem_singleton] at h
      subst h
      refine Or.inl (fun b hb => ?_)
      rcases List.mem_append.mp hb with h1 | h2
      · exact Or.inr (List.mem_reverse.mp h1)
      · exact Or.inl h2
  | succ fuel ih =>
    intro s acc sub h
    cases s with
    | nil =>
      simp only [reservedSplitGo, List.mem_singleton] at h
      subst h
      exact Or.inl (fun b hb => Or.inr (List.mem_reverse.mp hb))
    | cons c rest =>
      cases hfind : tokens.find? (fun t => !t.isEmpty && t.isPrefixOf (c :: rest)) with
      | some t =>
        simp only [reservedSplitGo, hfind] at h
        rcases List.mem_cons.mp h with rfl | h'
        · exact Or.inl (fun b hb => Or.inr (List.mem_reverse.mp hb))
        · rcases List.mem_cons.mp h' with rfl | h''
          · exact Or.inr (List.mem_of_find?_eq_some hfind)
          · rcases ih _ [] sub h'' with hmem | htok
            · refine Or.inl (fun b hb => ?_)
              rcases hmem b hb with h1 | h2
              · exact Or.inl ((List.drop_sublist _ _).subset h1)
              · simp at h2
            · exact Or.inr htok
      | none =>
        simp only [reservedSplitGo, hfind] at h
        rcases ih rest (c :: acc) sub h with hmem | htok
        · refine Or.inl (fun b hb => ?_)
          rcases hmem b hb with h1 | h2
          · exact Or.inl (List.mem_cons_of_mem c h1)
          · rcases List.mem_cons.mp h2 with rfl | h3
            · exact Or.inl (List.mem_cons_self _ _)
            · exact Or.inr h3
        · exact Or.inr htok

theorem splitRuns_flatten (isW : Char → Bool) (s : List Char) :
    (splitRuns isW s).flatten = s := by
  induction s with
  | nil => rfl
  | cons c rest ih =>
    cases hsp : splitRuns isW rest with
    | nil =>
      rw [hsp] at ih
      simp only [splitRuns, hsp, List.flatten]
      simp at ih
      simp [ih]
    | cons r rs =>
      rw [hsp] at ih
      cases r with
      | nil =>
        simp only [splitRuns, hsp]
        simp only [List.flatten_cons, List.nil_append] at ih
        simpa using ih
      | cons d r' =>
        by_cases hw : isW c = isW d
        · simp only [splitRuns, hsp, if_pos hw]
          simpa using ih
        · simp only [splitRuns, hsp, if_neg hw]
          simpa using ih

theorem splitRuns_ne_nil (isW : Char → Bool) (s : List Char) :
    ∀ r ∈ splitRuns isW s, r ≠ [] := by
  induction s with
  | nil => intro r hr; simp [splitRuns] at hr
  | cons c rest ih =>
    intro r hr
    cases hsp : splitRuns isW rest with
    | nil =>
      simp only [splitRuns, hsp, List.mem_singleton] at hr
      subst hr
      simp
    | cons r0 rs =>
      cases r0 with
      | nil =>
        simp only [splitRuns, hsp] at hr
        rcases List.mem_cons.mp hr with rfl | h'
        · simp
        · exact ih r (by rw [hsp]; exact List.mem_cons_of_mem _ h')
      | cons d r' =>
        simp only [splitRuns, hsp] at hr
        by_cases hw : isW c = isW d
        · rw [if_pos hw] at hr
          rcases List.mem_cons.mp hr with rfl | h'
          · simp
          · exact ih r (by rw [hsp]; exact List.mem_cons_of_mem _ h')
        · rw [if_neg hw] at hr
          rcases List.mem_cons.mp hr with rfl | h'
          · simp
          · exact ih r (by rw [hsp]; exact h')

theorem findDuplicatesGo_eq_nil [DecidableEq α] :
    ∀ (xs seen dups : List α), findDuplicatesGo xs seen dups = [] →
      dups = [] ∧ (∀ x ∈ xs, x ∉ seen) ∧ xs.Nodup := by
  intro xs
  induction xs with
  | nil =>
    intro seen dups h
    simp only [findDuplicatesGo] at h
    refine ⟨by simpa using h, by simp, List.nodup_nil⟩
  | cons x xs ih =>
    intro seen dups h
    by_cases hx : x ∈ seen
    · simp only [findDuplicatesGo, if_pos hx] at h
      rcases ih seen (x :: dups) h with ⟨hd, _, _⟩
      simp at hd
    · simp only [findDuplicatesGo, if_neg hx] at h
      rcases ih (x :: seen) dups h with ⟨hd, hns, hnd⟩
      refine ⟨hd, ?_, ?_⟩
      · intro y hy
        rcases List.mem_cons.mp hy with rfl | hy'
        · exact hx
        · exact fun hys => hns y hy' (List.mem_cons_of_mem x hys)
      · refine List.nodup_cons.mpr ⟨?_, hnd⟩
        intro hxxs
        exact hns x hxxs (List.mem_cons_self x seen)

theorem find_duplicates_eq_nil_nodup [DecidableEq α] (els : List α)
    (h : find_duplicates els = []) : els.Nodup :=
  (findDuplicatesGo_eq_nil els [] [] h).2.2

theorem tokenize_nil (tk : Tokenizer) : tk.tokenize [] = [] := by
  unfold Tokenizer.tokenize
  by_cases hr : tk.reserved_tokens.isEmpty <;>
    by_cases hm : ([] : List Char) ∈ tk.reserved_tokens <;>
      by_cases ha : tk.alphanum_only <;>
        simp [hr, hm, ha, reservedSplit, reservedSplitGo, splitRuns]

theorem procText_nil (e : TokenTextEncoder) : e.procText [] = [] := by
  unfold TokenTextEncoder.procText
  by_cases h : e.lowercase <;> simp [h]

theorem mapOrNone_bytes (s : List Nat) (hs : ∀ b ∈ s, b < 256) :
    mapOrNone (fun i => if 0 ≤ i ∧ i < 256 then some i.toNat else none)
      (s.map (fun (b : Nat) => (b : Int))) = some s := by
  induction s with
  | nil => rfl
  | cons b s ih =>
    have hb : (0 : Int) ≤ (b : Int) ∧ ((b : Int) < 256) := by
      constructor
      · exact Int.ofNat_nonneg b
      · exact_mod_cast hs b (List.mem_cons_self b s)
    simp only [List.map_cons, mapOrNone]
    rw [if_pos hb, ih (fun x hx => hs x (List.mem_cons_of_mem b hx))]
    simp

theorem ByteTextEncoder_decode_of_pad (e : ByteTextEncoder) (ids l : List Int)
    (h : pad_decr ids = some l) :
    e.decode ids =
      mapOrNone (fun i => if 0 ≤ i ∧ i < 256 then some i.toNat else none) l := by
  unfold ByteTextEncoder.decode
  rw [h]

/-! ### Claim theorems -/

/-- C3 (confirmed): on any id sequence containing a nonzero element, the
pad-removal step of decode removes exactly the maximal run of zeros at the
end of the sequence (scanning backward until the first nonzero) and then
subtracts 1 from every remaining id — so zeros that are not at the end come
out as -1 instead of being dropped. -/
theorem claim_C3_pad_decr_tail_strip (ids : List Int) (h : ∃ x ∈ ids, x ≠ 0) :
    pad_decr ids = some ((dropTrailingZeros ids).map (fun i => i - 1)) := by
  unfold pad_decr dropTrailingZeros
  rw [stripLeadingZeros_of_exists_ne ids.reverse (by simpa using h)]

theorem claim_C3_witness : pad_decr [0, 3, 0, 0] = some [-1, 2] := by
  rw [claim_C3_pad_decr_tail_strip [0, 3, 0, 0] ⟨3, by decide, by decide⟩]
  decide

/-- C10 (confirmed): on any non-empty id sequence consisting entirely of
zeros, the pad-removal step — and hence decode of both encoders — fails
(models the `IndexError` of the backward scan running past the start)
instead of returning an empty result. -/
theorem claim_C10_all_zero_error (ids : List Int) (_hne : ids ≠ [])
    (hz : ∀ x ∈ ids, x = 0) :
    pad_decr ids = none ∧ (∀ e : ByteTextEncoder, e.decode ids = none) ∧
      (∀ e : TokenTextEncoder, e.decode ids = none) := by
  have hpd : pad_decr ids = none := pad_decr_all_zero ids hz
  refine ⟨hpd, fun e => ?_, fun e => ?_⟩
  · unfold ByteTextEncoder.decode
    rw [hpd]
  · unfold TokenTextEncoder.decode
    rw [hpd]

theorem claim_C10_witness : pad_decr [0, 0] = none :=
  (claim_C10_all_zero_error [0, 0] (by decide) (by decide)).1

/-- C2 (counterexample): decode of the empty id sequence does not return an
empty result — it fails, because `pad_decr` immediately indexes `ids[-1]`
on the empty list. -/
theorem claim_C2_counterexample :
    (⟨[]⟩ : ByteTextEncoder).decode [] = none ∧
      (⟨[]⟩ : ByteTextEncoder).decode [] ≠ some [] := by
  decide

/-- C2 (amended): for every encoder, `encode ""` returns the empty id
sequence, but `decode []` raises an index error (`none`) rather than
returning an empty result. -/
theorem claim_C2_empty_encode_decode :
    (∀ e : ByteTextEncoder, e.encode [] = []) ∧
    (∀ e : TokenTextEncoder, e.encode [] = some []) ∧
    (∀ e : ByteTextEncoder, e.decode [] = none) ∧
    (∀ e : TokenTextEncoder, e.decode [] = none) := by
  refine ⟨fun e => ?_, fun e => ?_, fun e => rfl, fun e => rfl⟩
  · unfold ByteTextEncoder.encode
    by_cases hemp : e.additional_tokens.isEmpty
    · rw [if_pos hemp]
      rfl
    · rw [if_neg hemp]
      rfl
  · unfold TokenTextEncoder.encode
    rw [procText_nil, tokenize_nil]
    rfl

/-- C6 (counterexample): the byte round trip fails on the empty text —
`encode ""` is `[]` and `decode []` raises instead of returning `""`. -/
theorem claim_C6_counterexample :
    (⟨[]⟩ : ByteTextEncoder).decode ((⟨[]⟩ : ByteTextEncoder).encode []) = none ∧
      (⟨[]⟩ : ByteTextEncoder).decode ((⟨[]⟩ : ByteTextEncoder).encode []) ≠ some [] := by
  decide

/-- C6 (amended): for every non-empty text (UTF-8 byte sequence) and every
ByteTextEncoder without additional tokens, decode of encode reconstructs the
text byte for byte. -/
theorem claim_C6_roundtrip (e : ByteTextEncoder) (s : List Nat)
    (he : e.additional_tokens = []) (hne : s ≠ []) (hs : ∀ b ∈ s, b < 256) :
    e.decode (e.encode s) = some s := by
  have hemp : e.additional_tokens.isEmpty := by rw [he]; rfl
  have henc : e.encode s = s.map (fun (b : Nat) => (b : Int) + 1) := by
    unfold ByteTextEncoder.encode
    rw [if_pos hemp]
    unfold pad_incr
    rw [List.map_map]
    rfl
  have hnz : ∀ x ∈ s.map (fun (b : Nat) => (b : Int) + 1), x ≠ 0 := by
    intro x hx
    rcases List.mem_map.mp hx with ⟨b, _, rfl⟩
    have hb : (0 : Int) ≤ (b : Int) := Int.ofNat_nonneg b
    omega
  have hne' : s.map (fun (b : Nat) => (b : Int) + 1) ≠ [] := by
    intro hc
    exact hne (List.map_eq_nil_iff.mp hc)
  have hpd : pad_decr (e.encode s) = some (s.map (fun (b : Nat) => (b : Int))) := by
    rw [henc, pad_decr_no_zero _ hne' hnz, List.map_map]
    congr 1
    apply List.map_congr_left
    intro b _
    simp
  rw [ByteTextEncoder_decode_of_pad e _ _ hpd, mapOrNone_bytes s hs]

theorem claim_C6_witness :
    (⟨[]⟩ : ByteTextEncoder).decode ((⟨[]⟩ : ByteTextEncoder).encode [72, 105]) =
      some [72, 105] :=
  claim_C6_roundtrip ⟨[]⟩ [72, 105] rfl (by decide) (by decide)

/-- C1 (code bug, evaluated at the failing input): for the encoder with the
single additional token "A" (byte 65), encode assigns the token internal id
0 (external 1) and bytes the offset 1, but decode never consults the
additional tokens: the post-strip id 0 comes back as the raw byte 0 instead
of the token string "A", and byte ids keep their offset instead of having it
subtracted. -/
theorem claim_C1_decode_ignores_additional_tokens :
    (⟨[[65]]⟩ : ByteTextEncoder).encode [65] = [1] ∧
    (⟨[[65]]⟩ : ByteTextEncoder).decode [1] = some [0] ∧
    (⟨[[65]]⟩ : ByteTextEncoder).decode [1] ≠ some [65] ∧
    (⟨[[65]]⟩ : ByteTextEncoder).encode [66] = [68] ∧
    (⟨[[65]]⟩ : ByteTextEncoder).decode [68] = some [67] ∧
    (⟨[[65]]⟩ : ByteTextEncoder).decode [68] ≠ some [66] := by
  decide

theorem mem_pad_incr (l : List Int) (x : Int) (hx : x ∈ pad_incr l) :
    ∃ y ∈ l, x = y + 1 := by
  unfold pad_incr at hx
  rcases List.mem_map.mp hx with ⟨y, hy, h⟩
  exact ⟨y, hy, h.symm⟩

/-- C5 (confirmed): encode never produces the pad id 0 — every id it returns
lies in `[1, vocab_size)`, for the byte encoder (on well-formed byte input)
and for the token encoder (whenever encode succeeds). -/
theorem claim_C5_encode_range :
    (∀ (e : ByteTextEncoder) (s : List Nat), (∀ b ∈ s, b < 256) →
      ∀ x ∈ e.encode s, 1 ≤ x ∧ x < (e.vocab_size : Int)) ∧
    (∀ (e : TokenTextEncoder) (s : List Char) (ids : List Int),
      e.encode s = some ids → ∀ x ∈ ids, 1 ≤ x ∧ x < (e.vocab_size : Int)) := by
  constructor
  · intro e s hs x hx
    have hvs : (e.vocab_size : Int) = (e.additional_tokens.length : Int) + 256 + 1 := by
      unfold ByteTextEncoder.vocab_size NUM_BYTES
      push_cast
      ring
    unfold ByteTextEncoder.encode at hx
    by_cases hemp : e.additional_tokens.isEmpty
    · rw [if_pos hemp] at hx
      rcases mem_pad_incr _ _ hx with ⟨y, hy, hxy⟩
      rcases List.mem_map.mp hy with ⟨b, hb, hby⟩
      have hby' : y = (b : Int) := hby.symm
      have hblt : (b : Int) < 256 := by exact_mod_cast hs b hb
      have hb0 : (0 : Int) ≤ (b : Int) := Int.ofNat_nonneg b
      have hlen0 : (0 : Int) ≤ (e.additional_tokens.length : Int) := Int.ofNat_nonneg _
      rw [hvs]
      omega
    · rw [if_neg hemp] at hx
      rcases mem_pad_incr _ _ hx with ⟨y, hy, hxy⟩
      rcases List.mem_flatMap.mp hy with ⟨sub, hsub, hysub⟩
      by_cases hsE : sub.isEmpty
      · rw [if_pos hsE] at hysub
        simp at hysub
      · rw [if_neg hsE] at hysub
        cases hlk : dictZipLookup e.additional_tokens sub with
        | some i =>
          simp only [hlk] at hysub
          have hyi : y = (i : Int) := by simpa using hysub
          have hilt : i < e.additional_tokens.length := dictZipLookup_lt _ _ _ hlk
          rw [hvs]
          omega
        | none =>
          simp only [hlk] at hysub
          rcases List.mem_map.mp hysub with ⟨b, hbsub, hby⟩
          have hby' : y = (b : Int) + (e.additional_tokens.length : Int) := hby.symm
          have hnotmem : sub ∉ e.additional_tokens := dictZipLookup_none_not_mem _ _ hlk
          have hbs : b ∈ s := by
            rcases reservedSplitGo_mem e.additional_tokens s.length s [] sub hsub
              with hmem | htok
            · rcases hmem b hbsub with h1 | h2
              · exact h1
              · simp at h2
            · exact absurd htok hnotmem
          have hblt : (b : Int) < 256 := by exact_mod_cast hs b hbs
          have hb0 : (0 : Int) ≤ (b : Int) := Int.ofNat_nonneg b
          have hlen0 : (0 : Int) ≤ (e.additional_tokens.length : Int) := Int.ofNat_nonneg _
          rw [hvs]
          omega
  · intro e s ids henc x hx
    unfold TokenTextEncoder.encode at henc
    rcases Option.map_eq_some'.mp henc with ⟨l, hl, rfl⟩
    rcases mem_pad_incr _ _ hx with ⟨y, hy, hxy⟩
    rcases mapOrNone_mem _ _ _ hl y hy with ⟨tok, _, hftok⟩
    have hvs : (e.vocab_size : Int) =
        (e.vocab_list.length : Int) + (e.oov_buckets : Int) + 1 := by
      unfold TokenTextEncoder.vocab_size
      push_cast
      ring
    have hybound : 0 ≤ y ∧ y < (e.vocab_list.length : Int) + (e.oov_buckets : Int) := by
      cases hlk : dictZipLookup e.vocab_list tok with
      | some i =>
        simp only [hlk] at hftok
        have hyi : ((i : Nat) : Int) = y := Option.some.inj hftok
        have hilt : i < e.vocab_list.length := dictZipLookup_lt _ _ _ hlk
        omega
      | none =>
        simp only [hlk] at hftok
        rcases Option.map_eq_some'.mp hftok with ⟨n, hn, hny⟩
        have hny' : y = (n : Int) := hny.symm
        unfold TokenTextEncoder.oovBucket at hn
        by_cases hb0 : e.oov_buckets = 0
        · rw [if_pos hb0] at hn
          simp at hn
        · rw [if_neg hb0] at hn
          by_cases hb1 : e.oov_buckets = 1
          · rw [if_pos hb1] at hn
            have hnv : e.vocab_list.length = n := Option.some.inj hn
            rw [hb1]
            omega
          · rw [if_neg hb1] at hn
            have hnv : e.vocab_list.length + e.hashVal tok % e.oov_buckets = n :=
              Option.some.inj hn
            have hmod : e.hashVal tok % e.oov_buckets < e.oov_buckets :=
              Nat.mod_lt _ (Nat.pos_of_ne_zero hb0)
            omega
    rw [hvs]
    omega

theorem claim_C5_witness :
    (1 ≤ (73 : Int) ∧ (73 : Int) < ((⟨[]⟩ : ByteTextEncoder).vocab_size : Int)) ∧
    (1 ≤ (1 : Int) ∧ (1 : Int) < (smallVocabEncoder.vocab_size : Int)) := by
  constructor
  · exact claim_C5_encode_range.1 ⟨[]⟩ [72, 105] (by decide) 73 (by decide)
  · exact claim_C5_encode_range.2 smallVocabEncoder ['h', 'i'] [1] rfl 1 (by decide)

/-- C7 (confirmed): a Tokenizer with `alphanum_only = false` and no reserved
tokens is exactly invertible — joining the tokens of any string
reconstructs the string. -/
theorem claim_C7_tokenize_join_inverse (s : List Char) :
    Tokenizer.join ⟨false, []⟩ (Tokenizer.tokenize ⟨false, []⟩ s) = s := by
  have hfilt : (splitRuns isWordChar s).filter (fun t => !t.isEmpty) =
      splitRuns isWordChar s := by
    apply List.filter_eq_self.mpr
    intro r hr
    have h := splitRuns_ne_nil isWordChar s r hr
    simpa using h
  simp [Tokenizer.tokenize, Tokenizer.join, hfilt, splitRuns_flatten]

/-- C8 (confirmed): constructing a Tokenizer or a ByteTextEncoder from a
reserved/additional token list with a duplicate entry fails with the
duplicate-token construction error, before any encoding is possible. -/
theorem claim_C8_duplicate_reserved_error (b : Bool)
    (rc : List (List Char)) (rb : List (List Nat))
    (hc : ¬ rc.Nodup) (hbn : ¬ rb.Nodup) :
    (∃ d, mkTokenizer b rc = Except.error d) ∧
    (∃ d, mkByteTextEncoder rb = Except.error d) := by
  constructor
  · refine ⟨find_duplicates rc, ?_⟩
    have hdne : ¬ (find_duplicates rc).isEmpty = true := by
      intro h
      exact hc (find_duplicates_eq_nil_nodup rc (List.isEmpty_iff.mp h))
    simp only [mkTokenizer, prepare_reserved_tokens]
    rw [if_neg hdne]
    rfl
  · refine ⟨find_duplicates rb, ?_⟩
    have hdne : ¬ (find_duplicates rb).isEmpty = true := by
      intro h
      exact hbn (find_duplicates_eq_nil_nodup rb (List.isEmpty_iff.mp h))
    simp only [mkByteTextEncoder, prepare_reserved_tokens]
    rw [if_neg hdne]
    rfl

theorem claim_C8_witness :
    (∃ d, mkTokenizer true [['a'], ['a']] = Except.error d) ∧
    (∃ d, mkByteTextEncoder [[1], [1]] = Except.error d) :=
  claim_C8_duplicate_reserved_error true [['a'], ['a']] [[1], [1]]
    (by decide) (by decide)

/-- C9 (confirmed): with no OOV buckets, encode of a text one of whose
tokens is absent from the vocabulary fails with the out-of-vocabulary
error — no fallback id is produced. -/
theorem claim_C9_oov_error (e : TokenTextEncoder) (s t : List Char)
    (hb : e.oov_buckets = 0)
    (ht : t ∈ e.tokenizer.tokenize (e.procText s))
    (hv : t ∉ e.vocab_list) :
    e.encode s = none := by
  unfold TokenTextEncoder.encode
  rw [Option.map_eq_none']
  apply mapOrNone_none _ _ t ht
  have hlk : dictZipLookup e.vocab_list t = none :=
    dictZipLookup_none_of_not_mem e.vocab_list t hv
  simp only [hlk]
  unfold TokenTextEncoder.oovBucket
  rw [if_pos hb]
  rfl

theorem claim_C9_witness : noOovEncoder.encode ['a', 'b'] = none :=
  claim_C9_oov_error noOovEncoder ['a', 'b'] ['a', 'b'] rfl (by decide) (by decide)

/-- C4 (counterexample): with the duplicated vocabulary `["a", "a"]` the
token-to-id table maps "a" to index 1 — the last occurrence — not to the
first index 0, and encode returns `[2]`, not `[1]`. -/
theorem claim_C4_counterexample :
    dictZipLookup [['a'], ['a']] ['a'] = some 1 ∧
    dictZipLookup [['a'], ['a']] ['a'] ≠ some 0 ∧
    dupVocabEncoder.encode ['a'] = some [2] ∧
    dupVocabEncoder.encode ['a'] ≠ some [1] := by
  refine ⟨by decide, by decide, rfl, by decide⟩

/-- C4 (amended): the token-to-id table built by `dict(zip(vocab, range))`
maps every token present in the (normalized) vocabulary to the **last**
index at which it occurs, so encode of that token yields the last matching
index plus the pad increment. -/
theorem claim_C4_last_index (e : TokenTextEncoder) (t : List Char) :
    (t ∈ e.vocab_list → (dictZipLookup e.vocab_list t).isSome) ∧
    (∀ i, dictZipLookup e.vocab_list t = some i →
      e.vocab_list.get? i = some t ∧ ∀ j, e.vocab_list.get? j = some t → j ≤ i) ∧
    (∀ (s : List Char) (i : Nat), dictZipLookup e.vocab_list t = some i →
      e.tokenizer.tokenize (e.procText s) = [t] →
      e.encode s = some [(i : Int) + 1]) := by
  refine ⟨fun hm => dictZipLookup_isSome_of_mem _ _ hm,
    fun i hi => ⟨dictZipLookup_some _ _ _ hi, dictZipLookup_last _ _ _ hi⟩, ?_⟩
  intro s i hi htok
  unfold TokenTextEncoder.encode
  rw [htok]
  simp [mapOrNone, hi, pad_incr]

theorem claim_C4_witness : dupVocabEncoder.encode ['a'] = some [2] := by
  have h := (claim_C4_last_index dupVocabEncoder ['a']).2.2 ['a'] 1 (by decide) (by decide)
  simpa using h
